import Mathlib

/-!
Verification of the topic-to-wiki resolution engine of the MediaWiki bridge
service (`src/app.py`).

The Python source works on strings; here strings are shallowly embedded as
`List Char` (Lean `String`s appear only as literals, converted with `.data`,
and as the resolution-method labels).  HTTP traffic is embedded as explicit
oracles: a probe outcome function `List Char → Bool` for `_probe_api` results
per candidate API URL, an `Option (List Char)` for the hub-lookup result, and
an `Option (List Char)` for the final URL seen by the HEAD-redirect fallback.
Exceptions raised with an HTTP status (FastAPI `HTTPException`) are embedded
as `Except Nat` with the status code as the error value.
-/

namespace MWBridge

/-- ASCII lowering of one character; embeds Python `str.lower` on the ASCII
range used by the engine (codes 65-90 map to 97-122). -/
def lowerChar (c : Char) : Char :=
  if 65 ≤ c.toNat ∧ c.toNat ≤ 90 then Char.ofNat (c.toNat + 32) else c

/-- Lowering of a character list; embeds `str.lower`. -/
def lowerStr (l : List Char) : List Char := l.map lowerChar

/-- Embeds Python `str.strip`: drop whitespace from both ends. -/
def trimL (l : List Char) : List Char :=
  ((l.dropWhile Char.isWhitespace).reverse.dropWhile Char.isWhitespace).reverse

/-- Split a character list at the first occurrence of the pattern `pat`,
returning the part before and the part after the occurrence.  Embeds both
Python's `in` substring test and `str.split(pat, 1)`. -/
def splitAtSub (pat : List Char) : List Char → Option (List Char × List Char)
  | [] => none
  | c :: rest =>
    if pat.isPrefixOf (c :: rest) then some ([], (c :: rest).drop pat.length)
    else (splitAtSub pat rest).map (fun p => (c :: p.1, p.2))

/-- A character of the `scheme` part that Python `urlparse` accepts. -/
def scheme_char (c : Char) : Bool :=
  c.isAlphanum || c = '+' || c = '-' || c = '.'

/-- Validity of a candidate scheme part, as checked by Python `urlparse`:
nonempty, first character alphabetic, rest scheme characters. -/
def valid_scheme_chars : List Char → Bool
  | [] => false
  | c :: cs => c.isAlpha && cs.all scheme_char

/-- Characters ending the network-location part of a URL. -/
def netloc_end (c : Char) : Bool := c = '/' || c = '?' || c = '#'

/-- Hostname of a netloc as computed by Python `urlparse`: text after the
last `@` (userinfo removed), before the first `:` (port removed), lowercased;
`none` when empty. -/
def hostname_of_netloc (netloc : List Char) : Option (List Char) :=
  let hostport := (netloc.reverse.takeWhile (fun c => c ≠ '@')).reverse
  let host := lowerStr (hostport.takeWhile (fun c => c ≠ ':'))
  if host = [] then none else some host

/-- Netloc of the text following `scheme:` — present only when it starts
with `//`, and then runs to the first `/`, `?` or `#`. -/
def host_part (l : List Char) : Option (List Char) :=
  hostname_of_netloc ((l.drop 2).takeWhile (fun c => !netloc_end c))

/-- The scheme and hostname fields of Python `urlparse`, embedded for the
URL shapes the engine handles: an optional `scheme:` prefix (scheme
lowercased), and a hostname only when a `//` netloc follows. -/
def url_scheme_host (l : List Char) : List Char × Option (List Char) :=
  if "//".data.isPrefixOf l then ([], host_part l)
  else
    let before := l.takeWhile (fun c => c ≠ ':')
    let after := l.dropWhile (fun c => c ≠ ':')
    match after with
    | [] => ([], none)
    | _ :: rest =>
      if valid_scheme_chars before then
        let scheme := lowerStr before
        if "//".data.isPrefixOf rest then (scheme, host_part rest)
        else (scheme, none)
      else ([], none)

/-- `normalize_base` from the source: parse the stripped URL, require an
http/https scheme and a nonempty hostname (else HTTP 400), and rebuild
`scheme://host`. -/
def normalize_base (url : List Char) : Except Nat (List Char) :=
  let p := url_scheme_host (trimL url)
  let host := p.2.getD []
  if (p.1 = "http".data ∨ p.1 = "https".data) ∧ host ≠ [] then
    .ok (p.1 ++ "://".data ++ host)
  else .error 400

/-- `ALLOWED_WIKI_HOST_SUFFIXES` from the source. -/
def ALLOWED_WIKI_HOST_SUFFIXES : List (List Char) :=
  ["fandom.com".data, "wiki.gg".data, "wikipedia.org".data]

/-- `host_is_allowed` from the source: the lowercased parsed hostname must
end with one of the allow-listed suffixes. -/
def host_is_allowed (base : List Char) : Bool :=
  let host := lowerStr ((url_scheme_host base).2.getD [])
  ALLOWED_WIKI_HOST_SUFFIXES.any (fun sfx => sfx.isSuffixOf host)

/-- `is_fandom` from the source. -/
def is_fandom (base : List Char) : Bool :=
  let host := lowerStr ((url_scheme_host base).2.getD [])
  "fandom.com".data.isSuffixOf host

/-- `is_wikipedia` from the source. -/
def is_wikipedia (base : List Char) : Bool :=
  let host := lowerStr ((url_scheme_host base).2.getD [])
  "wikipedia.org".data.isSuffixOf host

/-- `candidate_action_apis` from the source: re-normalize the base, then
Wikipedia gets only `/w/api.php`, Fandom gets `/api.php` then `/w/api.php`,
and every other host gets `/w/api.php` then `/api.php`. -/
def candidate_action_apis (base : List Char) : Except Nat (List (List Char)) :=
  match normalize_base base with
  | .error e => .error e
  | .ok b =>
    if is_wikipedia b then .ok [b ++ "/w/api.php".data]
    else if is_fandom b then .ok [b ++ "/api.php".data, b ++ "/w/api.php".data]
    else .ok [b ++ "/w/api.php".data, b ++ "/api.php".data]

/-- `STOPWORDS` from the source. -/
def STOPWORDS : List (List Char) :=
  ["the".data, "a".data, "an".data, "and".data, "or".data, "of".data,
   "to".data, "in".data, "on".data, "for".data]

/-- `ROMANS` from the source. -/
def ROMANS : List (List Char) :=
  ["i".data, "ii".data, "iii".data, "iv".data, "v".data, "vi".data,
   "vii".data, "viii".data, "ix".data, "x".data]

/-- `_is_roman_numeral` from the source (the second, overriding definition):
lowercase the token and test membership in `ROMANS`. -/
def is_roman_numeral (t : List Char) : Bool := ROMANS.contains (lowerStr t)

/-- A word character, embedding the regex class `\w` of the source's
`re.sub(r"[^\w\s]", " ", s)` over the engine's alphabet. -/
def wordChar (c : Char) : Bool := c.isAlphanum || c = '_'

/-- Accumulator loop splitting a character list into maximal runs of
non-space characters (`cur` holds the current run reversed). -/
def split_tokens_go : List Char → List Char → List (List Char)
  | [], cur => if cur = [] then [] else [cur.reverse]
  | c :: rest, cur =>
    if c = ' ' then
      if cur = [] then split_tokens_go rest []
      else cur.reverse :: split_tokens_go rest []
    else split_tokens_go rest (c :: cur)

/-- Split on spaces dropping empty pieces; embeds the source's
`re.sub(r"\s+", " ", s).strip().split(" ")` followed by the
`if t` filter (their composite effect is whitespace-run splitting). -/
def split_tokens (l : List Char) : List (List Char) := split_tokens_go l []

/-- `tokenize_topic` from the source: strip and lowercase, fail with HTTP 400
when the result is empty, replace non-word characters by spaces and split
into tokens. -/
def tokenize_topic (topic : List Char) : Except Nat (List (List Char)) :=
  let s := lowerStr (trimL topic)
  if s = [] then .error 400
  else .ok (split_tokens (s.map (fun c => if wordChar c then c else ' ')))

/-- `join_compact` from the source: `"".join`. -/
def join_compact : List (List Char) → List Char
  | [] => []
  | t :: rest => t ++ join_compact rest

/-- `join_hyphen` from the source: `"-".join`. -/
def join_hyphen : List (List Char) → List Char
  | [] => []
  | [t] => t
  | t :: rest => t ++ '-' :: join_hyphen rest

/-- Python `str.isdigit` on the ASCII range: nonempty and all digits. -/
def py_is_digit (t : List Char) : Bool := !t.isEmpty && t.all Char.isDigit

/-- `re.sub(r"\d+$", "", t)`: strip a trailing run of digits. -/
def strip_digit_suffix (t : List Char) : List Char :=
  (t.reverse.dropWhile Char.isDigit).reverse

/-- The raw candidate list built by `candidate_slugs` before its final
dedup/length filter, in the source's append order. -/
def slug_candidates_raw (tokens : List (List Char)) : List (List Char) :=
  let cleaned := tokens.filter (fun t => !STOPWORDS.contains t)
  (if cleaned ≠ [] then [join_compact cleaned, join_hyphen cleaned] else []) ++
  [join_compact tokens, join_hyphen tokens] ++
  (if 2 ≤ cleaned.length then
    [join_compact (cleaned.take 2), join_hyphen (cleaned.take 2)] else []) ++
  (if 2 ≤ tokens.length then
    [join_compact (tokens.take 2), join_hyphen (tokens.take 2)] else []) ++
  (let no_roman := cleaned.filter (fun t => !is_roman_numeral t)
   if no_roman ≠ [] then [join_compact no_roman, join_hyphen no_roman] else []) ++
  (let no_digits := cleaned.filter (fun t => !py_is_digit t)
   if no_digits ≠ [] then [join_compact no_digits, join_hyphen no_digits] else []) ++
  (let sds := (cleaned.map strip_digit_suffix).filter (fun t => !t.isEmpty)
   if sds ≠ [] then [join_compact sds, join_hyphen sds] else []) ++
  ((List.range' 1 (cleaned.length - 1)).reverse.flatMap
    (fun n => [join_compact (cleaned.take n), join_hyphen (cleaned.take n)])) ++
  (if 2 ≤ cleaned.length ∧ cleaned.length ≤ 6 then
    let acro := cleaned.filterMap (fun t =>
      match t with
      | [] => none
      | c :: _ => if c.isAlphanum then some c else none)
    if acro ≠ [] then [acro] else []
   else [])

/-- The final loop of `candidate_slugs`: strip/lowercase each candidate, drop
empties and candidates shorter than 3, and keep the first occurrence of each
(already-lowercased) value. -/
def dedup_filter : List (List Char) → List (List Char) → List (List Char)
  | [], _ => []
  | c :: rest, seen =>
    let d := lowerStr (trimL c)
    if d = [] then dedup_filter rest seen
    else if d.length < 3 then dedup_filter rest seen
    else if seen.contains d then dedup_filter rest seen
    else d :: dedup_filter rest (d :: seen)

/-- `candidate_slugs` from the source. -/
def candidate_slugs (topic : List Char) : Except Nat (List (List Char)) :=
  (tokenize_topic topic).map (fun tokens => dedup_filter (slug_candidates_raw tokens) [])

/-- JSON values, the shape of parsed response bodies. -/
inductive Json where
  | null
  | jbool (b : Bool)
  | jnum (n : Int)
  | jstr (s : List Char)
  | jarr (xs : List Json)
  | jobj (fields : List (List Char × Json))

/-- Python truthiness on JSON values (`None`, `False`, `0`, `""`, `[]` and
`{}` are falsy). -/
def json_falsy : Json → Bool
  | .null => true
  | .jbool b => !b
  | .jnum n => n == 0
  | .jstr s => s.isEmpty
  | .jarr xs => xs.isEmpty
  | .jobj fs => fs.isEmpty

/-- Python `dict.get`: the value of the first binding of `key`, if any. -/
def dict_get (key : List Char) : List (List Char × Json) → Option Json
  | [] => none
  | kv :: rest => if kv.1 = key then some kv.2 else dict_get key rest

/-- What one probe request can come back with: a raised transport exception,
or a response with a status code and a body (`none` for a body that is not
valid JSON, so that `r.json()` raises). -/
inductive ProbeResponse where
  | exn
  | resp (status : Nat) (body : Option Json)

/-- `_probe_api` from the source, as a function of the observed response:
require status 200, parse JSON (a parse failure is caught), and test that
`data.get("query")`-falsiness-defaulted-to-`{}` has a `search` key holding a
list; every exception (transport, `r.json()`, attribute errors on non-dict
values) is caught and yields `False`. -/
def probe_api (r : ProbeResponse) : Bool :=
  match r with
  | .exn => false
  | .resp status body =>
    if status ≠ 200 then false
    else
      match body with
      | none => false
      | some data =>
        match data with
        | .jobj fields =>
          let q : Json :=
            match dict_get "query".data fields with
            | none => .jobj []
            | some v => if json_falsy v then .jobj [] else v
          match q with
          | .jobj qf =>
            match dict_get "search".data qf with
            | some (.jarr _) => true
            | _ => false
          | _ => false
        | _ => false

/-- The claim's success criterion, written from the spec's words: the body is
a JSON object whose `query` field is an object whose `search` field is
present and is a sequence. -/
def query_search_is_sequence (data : Json) : Bool :=
  match data with
  | .jobj fields =>
    match dict_get "query".data fields with
    | some (.jobj qf) =>
      match dict_get "search".data qf with
      | some (.jarr _) => true
      | _ => false
    | _ => false
  | _ => false

/-- The network, embedded as oracles: the boolean outcome `_probe_api`
returns for each candidate API URL, and the base URL `fandom_hub_lookup`
returns (`none` when it returns `None`). -/
structure NetOracle where
  probe : List Char → Bool
  hub : Option (List Char)

/-- The innermost loop of `resolve_topic` over candidate API endpoints:
result of the first successful probe, with the number of probe calls made. -/
def probe_apis (o : List Char → Bool) : List (List Char) → Bool × Nat
  | [] => (false, 0)
  | api :: rest =>
    if o api then (true, 1)
    else
      let r := probe_apis o rest
      (r.1, r.2 + 1)

/-- The two raw candidate bases `resolve_topic` builds from one slug, in
order: fandom.com first, then wiki.gg. -/
def slug_bases (slug : List Char) : List (List Char) :=
  ["https://".data ++ slug ++ ".fandom.com".data,
   "https://".data ++ slug ++ ".wiki.gg".data]

/-- The middle loop of `resolve_topic` over the candidate bases of one slug:
normalize (propagating a raised error), skip disallowed hosts, and probe the
base's candidate APIs, short-circuiting on the first success.  Returns the
resolved base (if any) and the number of probe calls made. -/
def try_bases (o : List Char → Bool) :
    List (List Char) → Except Nat (Option (List Char)) × Nat
  | [] => (.ok none, 0)
  | raw :: rest =>
    match normalize_base raw with
    | .error e => (.error e, 0)
    | .ok base =>
      if host_is_allowed base then
        match candidate_action_apis base with
        | .error e => (.error e, 0)
        | .ok apis =>
          let pr := probe_apis o apis
          if pr.1 then (.ok (some base), pr.2)
          else
            let r := try_bases o rest
            (r.1, pr.2 + r.2)
      else try_bases o rest

/-- The outer loop of `resolve_topic` over the slug candidates. -/
def try_slugs (o : List Char → Bool) :
    List (List Char) → Except Nat (Option (List Char)) × Nat
  | [] => (.ok none, 0)
  | slug :: rest =>
    let r := try_bases o (slug_bases slug)
    match r.1 with
    | .error e => (.error e, r.2)
    | .ok (some base) => (.ok (some base), r.2)
    | .ok none =>
      let r2 := try_slugs o rest
      (r2.1, r.2 + r2.2)

/-- `resolve_topic` from the source, instrumented with the number of probe
calls and of hub lookups it performs: an explicit http/https topic is
normalized and allow-list checked, otherwise the slug/base/endpoint loops run
and, on exhaustion, the Fandom hub fallback. -/
def resolve_topic (o : NetOracle) (topic : List Char) :
    Except Nat (List Char × String) × Nat × Nat :=
  if "http://".data.isPrefixOf topic ∨ "https://".data.isPrefixOf topic then
    match normalize_base topic with
    | .error e => (.error e, 0, 0)
    | .ok base =>
      if host_is_allowed base then (.ok (base, "explicit"), 0, 0)
      else (.error 403, 0, 0)
  else
    match candidate_slugs topic with
    | .error e => (.error e, 0, 0)
    | .ok slugs =>
      let r := try_slugs o.probe slugs
      match r.1 with
      | .error e => (.error e, r.2, 0)
      | .ok (some base) => (.ok (base, "slug"), r.2, 0)
      | .ok none =>
        match o.hub with
        | some fb =>
          if host_is_allowed fb then (.ok (fb, "fandom_hub"), r.2, 1)
          else (.error 404, r.2, 1)
        | none => (.error 404, r.2, 1)

/-- `resolve_with_optional_base` from the source: a truthy `wiki` parameter
is normalized and allow-list checked, everything else defers to
`resolve_topic`. -/
def resolve_with_optional_base (o : NetOracle) (topic : List Char)
    (wiki : Option (List Char)) : Except Nat (List Char × String) × Nat × Nat :=
  match wiki with
  | some w =>
    if w ≠ [] then
      match normalize_base w with
      | .error e => (.error e, 0, 0)
      | .ok base =>
        if host_is_allowed base then (.ok (base, "explicit"), 0, 0)
        else (.error 403, 0, 0)
    else resolve_topic o topic
  | none => resolve_topic o topic

/-- The (base, API URL) probe sequence of `resolve_topic` in priority order:
slugs in order, per slug fandom.com before wiki.gg, per base the primary
endpoint before the fallback, skipping bases the loop skips. -/
def probe_plan (slugs : List (List Char)) : List (List Char × List Char) :=
  slugs.flatMap (fun slug =>
    (slug_bases slug).flatMap (fun raw =>
      match normalize_base raw with
      | .error _ => []
      | .ok base =>
        if host_is_allowed base then
          match candidate_action_apis base with
          | .error _ => []
          | .ok apis => apis.map (fun a => (base, a))
        else []))

/-- The `/wiki/` marker of the HEAD-redirect fallback. -/
def wiki_marker : List Char := "/wiki/".data

/-- Python `str.replace("_", " ")`. -/
def underscores_to_spaces (l : List Char) : List Char :=
  l.map (fun c => if c = '_' then ' ' else c)

/-- `resolve_via_http_redirect` from the source, as a function of the final
URL observed after following redirects (`none` when the HEAD request raised):
`None` when `/wiki/` does not occur in the final URL, else the text after the
first `/wiki/` with underscores turned into spaces. -/
def resolve_via_http_redirect (final : Option (List Char)) : Option (List Char) :=
  match final with
  | none => none
  | some f =>
    match splitAtSub wiki_marker f with
    | none => none
    | some p => some (underscores_to_spaces p.2)

/-- Characters that can appear in a token produced by `tokenize_topic`:
word characters fixed under lowering. -/
def good_tok_char (c : Char) : Prop := wordChar c = true ∧ lowerChar c = c

/-- Characters that can appear in a generated slug: token characters plus
the hyphen introduced by `join_hyphen`. -/
def good_slug_char (c : Char) : Prop := good_tok_char c ∨ c = '-'

/-- Slugs safe to splice into `https://{slug}.fandom.com`. -/
def good_slug (s : List Char) : Prop := s ≠ [] ∧ ∀ c ∈ s, good_slug_char c

/-- Characters that can sit in the tail of a synthesized base URL without
disturbing parsing: not whitespace, fixed under lowering, and none of the
URL delimiters. -/
@[reducible] def good_url_tail_char (c : Char) : Prop :=
  c.isWhitespace = false ∧ lowerChar c = c ∧ c ≠ ':' ∧ c ≠ '@' ∧
    netloc_end c = false

/-- The four (base, API URL) probes `resolve_topic` issues for one slug, in
priority order. -/
def plan_of_slug (s : List Char) : List (List Char × List Char) :=
  let fb := "https://".data ++ s ++ ".fandom.com".data
  let wb := "https://".data ++ s ++ ".wiki.gg".data
  [(fb, fb ++ "/api.php".data), (fb, fb ++ "/w/api.php".data),
   (wb, wb ++ "/w/api.php".data), (wb, wb ++ "/api.php".data)]

/-- Decidable equality of embedded fallible results. -/
instance exceptDecEq {ε α : Type} [DecidableEq ε] [DecidableEq α] :
    DecidableEq (Except ε α) := fun x y =>
  match x, y with
  | .ok a, .ok b =>
    if h : a = b then isTrue (by rw [h])
    else isFalse (fun hc => h (Except.ok.inj hc))
  | .error a, .error b =>
    if h : a = b then isTrue (by rw [h])
    else isFalse (fun hc => h (Except.error.inj hc))
  | .ok _, .error _ => isFalse (fun hc => Except.noConfusion hc)
  | .error _, .ok _ => isFalse (fun hc => Except.noConfusion hc)

/-- A network where every probe fails and the hub lookup returns nothing. -/
def o_false : NetOracle := ⟨fun _ => false, none⟩

/-- A network where every probe fails but the hub lookup finds a wiki. -/
def o_hub : NetOracle := ⟨fun _ => false, some "https://zelda.fandom.com".data⟩

/-- A network where exactly the probe of `https://zzz.fandom.com/w/api.php`
succeeds. -/
def o_zzz : NetOracle :=
  ⟨fun l => l == "https://zzz.fandom.com/w/api.php".data, none⟩

/-! Helper lemmas about characters and lists. -/

theorem char_toNat_ofNat {n : Nat} (h : n < 55296) : (Char.ofNat n).toNat = n := by
  unfold Char.ofNat
  split
  · rfl
  · rename_i hv
    exact absurd (Or.inl h) hv

theorem lowerChar_idem (c : Char) : lowerChar (lowerChar c) = lowerChar c := by
  by_cases h : 65 ≤ c.toNat ∧ c.toNat ≤ 90
  · have h1 : lowerChar c = Char.ofNat (c.toNat + 32) := by
      unfold lowerChar
      rw [if_pos h]
    have hval : (Char.ofNat (c.toNat + 32)).toNat = c.toNat + 32 :=
      char_toNat_ofNat (by omega)
    rw [h1]
    unfold lowerChar
    rw [if_neg (by omega)]
  · have h1 : lowerChar c = c := by
      unfold lowerChar
      rw [if_neg h]
    rw [h1, h1]

theorem lowerStr_idem (l : List Char) : lowerStr (lowerStr l) = lowerStr l := by
  unfold lowerStr
  rw [List.map_map]
  exact List.map_congr_left (fun c _ => lowerChar_idem c)

theorem map_eq_self_of {α : Type} {f : α → α} {l : List α}
    (h : ∀ a ∈ l, f a = a) : l.map f = l := by
  rw [List.map_congr_left h]
  simp

theorem dropWhile_eq_self_of {α : Type} {p : α → Bool} {l : List α}
    (h : ∀ a ∈ l, p a = false) : l.dropWhile p = l := by
  cases l with
  | nil => rfl
  | cons a l =>
    rw [List.dropWhile_cons, if_neg]
    simp [h a (by simp)]

theorem takeWhile_eq_self_of {α : Type} {p : α → Bool} {l : List α}
    (h : ∀ a ∈ l, p a = true) : l.takeWhile p = l :=
  List.takeWhile_eq_self_iff.mpr h

theorem trimL_eq_self {l : List Char}
    (h : ∀ c ∈ l, c.isWhitespace = false) : trimL l = l := by
  unfold trimL
  rw [dropWhile_eq_self_of h, dropWhile_eq_self_of (fun c hc => h c (List.mem_reverse.mp hc)),
    List.reverse_reverse]

theorem takeWhile_append_all {α : Type} {p : α → Bool} {l₁ l₂ : List α}
    (h : ∀ a ∈ l₁, p a = true) :
    (l₁ ++ l₂).takeWhile p = l₁ ++ l₂.takeWhile p := by
  rw [List.takeWhile_append, takeWhile_eq_self_of h, if_pos rfl]

theorem dropWhile_append_all {α : Type} {p : α → Bool} {l₁ l₂ : List α}
    (h : ∀ a ∈ l₁, p a = true) :
    (l₁ ++ l₂).dropWhile p = l₂.dropWhile p := by
  induction l₁ with
  | nil => simp
  | cons a l ih =>
    rw [List.cons_append, List.dropWhile_cons, if_pos (by simp [h a (by simp)])]
    exact ih (fun b hb => h b (by simp [hb]))

/-! Claim C4: probe success criterion. -/

theorem probe_api_eval (data : Json) :
    probe_api (.resp 200 (some data)) = query_search_is_sequence data := by
  cases data with
  | jobj fields =>
    cases hq : dict_get "query".data fields with
    | none => simp [probe_api, query_search_is_sequence, hq, dict_get]
    | some v =>
      cases v with
      | jobj qf =>
        cases qf with
        | nil => simp [probe_api, query_search_is_sequence, hq, json_falsy, dict_get]
        | cons kv rest =>
          simp [probe_api, query_search_is_sequence, hq, json_falsy, dict_get]
      | null => simp [probe_api, query_search_is_sequence, hq, json_falsy, dict_get]
      | jbool b =>
        cases b <;> simp [probe_api, query_search_is_sequence, hq, json_falsy, dict_get]
      | jnum n =>
        by_cases hn : n = 0 <;>
          simp [probe_api, query_search_is_sequence, hq, json_falsy, hn, dict_get]
      | jstr s =>
        cases s <;> simp [probe_api, query_search_is_sequence, hq, json_falsy, dict_get]
      | jarr xs =>
        cases xs <;> simp [probe_api, query_search_is_sequence, hq, json_falsy, dict_get]
  | null => simp [probe_api, query_search_is_sequence]
  | jbool b => simp [probe_api, query_search_is_sequence]
  | jnum n => simp [probe_api, query_search_is_sequence]
  | jstr s => simp [probe_api, query_search_is_sequence]
  | jarr xs => simp [probe_api, query_search_is_sequence]

/-- Claim C4 (confirmed): a probe returns `true` exactly when the response
has status 200, the body parses as JSON, and the `query.search` field is
present and is a sequence; every exception outcome and every non-200 status
or malformed body yields `false` (the probe, being a total boolean function
of the observed response, propagates no exception). -/
theorem C4_probe_success_criterion (r : ProbeResponse) :
    probe_api r = true ↔
      ∃ d : Json, r = .resp 200 (some d) ∧ query_search_is_sequence d = true := by
  cases r with
  | exn =>
    simp [probe_api]
  | resp status body =>
    by_cases hs : status = 200
    · subst hs
      cases body with
      | none => simp [probe_api]
      | some data =>
        rw [probe_api_eval]
        constructor
        · intro h
          exact ⟨data, rfl, h⟩
        · rintro ⟨d, hd, h⟩
          obtain ⟨rfl⟩ : data = d := by
            cases hd
            rfl
          exact h
    · constructor
      · intro h
        exfalso
        have : probe_api (.resp status body) = false := by
          simp [probe_api, hs]
        rw [this] at h
        exact Bool.false_ne_true h
      · rintro ⟨d, hd, h⟩
        exact absurd (by cases hd; rfl : status = 200) hs

/-! Claim C8: HTTP-redirect title extraction. -/

theorem prefix_append_left {α : Type} {p l₁ l₂ : List α}
    (h : p <+: l₁ ++ l₂) (hlen : p.length ≤ l₁.length) : p <+: l₁ := by
  have h1 : p = (l₁ ++ l₂).take p.length := List.prefix_iff_eq_take.mp h
  rw [List.take_append_of_le_length hlen] at h1
  rw [h1]
  exact List.take_prefix _ _

theorem splitAtSub_append_of_not_sub {pat pre seg : List Char} (hpat : pat ≠ [])
    (hfree : splitAtSub pat (pre ++ pat.dropLast) = none) :
    splitAtSub pat (pre ++ pat ++ seg) = some (pre, seg) := by
  obtain ⟨c, p', rfl⟩ : ∃ c p', pat = c :: p' := by
    cases pat with
    | nil => exact absurd rfl hpat
    | cons c p' => exact ⟨c, p', rfl⟩
  induction pre with
  | nil =>
    rw [List.nil_append, List.cons_append, splitAtSub,
      if_pos (List.isPrefixOf_iff_prefix.mpr ⟨seg, by simp⟩)]
    rw [← List.cons_append, List.drop_left]
  | cons x pre' ih =>
    rw [List.cons_append] at hfree
    rw [List.cons_append, List.cons_append]
    rw [splitAtSub] at hfree ⊢
    by_cases hp : (c :: p').isPrefixOf (x :: (pre' ++ (c :: p').dropLast)) = true
    · rw [if_pos hp] at hfree
      exact absurd hfree (by simp)
    · rw [if_neg hp] at hfree
      have htail : splitAtSub (c :: p') (pre' ++ (c :: p').dropLast) = none :=
        Option.map_eq_none'.mp hfree
      rw [if_neg ?hnp, ih htail]
      · rfl
      case hnp =>
        intro hpre
        apply hp
        have h1 : (c :: p') <+: x :: (pre' ++ (c :: p') ++ seg) :=
          List.isPrefixOf_iff_prefix.mp hpre
        have h2 : x :: (pre' ++ (c :: p') ++ seg) =
            (x :: (pre' ++ (c :: p').dropLast)) ++
              ((c :: p').getLast (by simp) :: seg) := by
          rw [List.cons_append]
          congr 1
          rw [List.append_assoc, List.append_assoc]
          congr 1
          conv_lhs => rw [← List.dropLast_append_getLast (l := c :: p') (by simp)]
          simp
        rw [h2] at h1
        have hlen : (c :: p').length ≤ (x :: (pre' ++ (c :: p').dropLast)).length := by
          simp [List.length_dropLast]
        exact List.isPrefixOf_iff_prefix.mpr (prefix_append_left h1 hlen)

/-- Claim C8 (counterexample): when the HEAD request's final URL ends in
`/wiki/The_Storm_Dragon%2C_Veldora`, the fallback returns
`The Storm Dragon%2C Veldora` — underscores are converted but the
percent-escape is not decoded, so the canonical title is not the claimed
`The Storm Dragon, Veldora`. -/
theorem C8_counterexample :
    resolve_via_http_redirect
        (some "https://tensura.fandom.com/wiki/The_Storm_Dragon%2C_Veldora".data)
      = some "The Storm Dragon%2C Veldora".data ∧
    some "The Storm Dragon%2C Veldora".data ≠
      some "The Storm Dragon, Veldora".data := by
  constructor
  · decide
  · decide

/-- Claim C8 (amended): when API-level redirect resolution fails, the
HTTP-level fallback extracts the canonical title as the text after the first
`/wiki/` of the final URL with underscores converted to spaces and with no
percent-decoding; in particular a final URL ending in
`/wiki/The_Storm_Dragon%2C_Veldora` yields `The Storm Dragon%2C Veldora`. -/
theorem C8_redirect_extraction {pre seg : List Char}
    (hfree : splitAtSub wiki_marker (pre ++ wiki_marker.dropLast) = none) :
    resolve_via_http_redirect (some (pre ++ wiki_marker ++ seg)) =
      some (underscores_to_spaces seg) := by
  simp only [resolve_via_http_redirect]
  rw [splitAtSub_append_of_not_sub (by decide) hfree]

theorem C8_redirect_extraction_witness :
    resolve_via_http_redirect
        (some ("https://tensura.fandom.com".data ++ wiki_marker ++
          "The_Storm_Dragon%2C_Veldora".data)) =
      some (underscores_to_spaces "The_Storm_Dragon%2C_Veldora".data) :=
  C8_redirect_extraction (by decide)

/-! Claim C6: empty tokenization. -/

/-- Claim C6 (counterexample): a punctuation-only topic tokenizes to no
tokens, yet slug generation returns an empty candidate list instead of
failing with the EmptyTopicError (HTTP 400). -/
theorem C6_counterexample :
    tokenize_topic "!!!".data = .ok [] ∧
    candidate_slugs "!!!".data = .ok [] ∧
    candidate_slugs "!!!".data ≠ .error 400 := by
  refine ⟨by decide, by decide, by decide⟩

/-- Claim C6 (amended): when tokenization yields no tokens, slug generation
does not fail — it returns the empty candidate list; the 400 EmptyTopicError
is raised only when the stripped topic string itself is empty. -/
theorem C6_no_tokens_empty_slugs (topic : List Char)
    (h : tokenize_topic topic = .ok []) : candidate_slugs topic = .ok [] := by
  unfold candidate_slugs
  rw [h]
  rfl

theorem C6_no_tokens_empty_slugs_witness :
    candidate_slugs "??".data = .ok [] :=
  C6_no_tokens_empty_slugs "??".data (by decide)

/-! Claim C2: resolution-method values. -/

theorem resolve_topic_methods (o : NetOracle) (topic base : List Char)
    (m : String) (h : (resolve_topic o topic).1 = .ok (base, m)) :
    m = "explicit" ∨ m = "slug" ∨ m = "fandom_hub" := by
  unfold resolve_topic at h
  split at h
  · split at h
    · simp at h
    · split at h
      · simp at h
        exact Or.inl h.2.symm
      · simp at h
  · split at h
    · simp at h
    · rename_i slugs heq
      rcases htr : (try_slugs o.probe slugs).1 with e | ob <;> simp only [htr] at h
      · simp at h
      · rcases ob with _ | b
        · rcases hhub : o.hub with _ | fb <;> simp only [hhub] at h
          · simp at h
          · split at h
            · simp at h
              exact Or.inr (Or.inr h.2.symm)
            · simp at h
        · simp at h
          exact Or.inr (Or.inl h.2.symm)

/-- Claim C2 (counterexample): the hub-fallback path returns the method
string `fandom_hub`, not the claimed `hub`. -/
theorem C2_counterexample :
    (resolve_topic o_hub "qqq".data).1 =
      .ok ("https://zelda.fandom.com".data, "fandom_hub") ∧
    "fandom_hub" ≠ "hub" := by
  refine ⟨by decide, by decide⟩

/-- Claim C2 (amended): every successful resolution reports one of exactly
three method strings — `explicit` (caller supplied the wiki), `slug`
(guessed and probed), or `fandom_hub` (the platform-wide search fallback);
the hub path reports `fandom_hub`. -/
theorem C2_resolution_methods (o : NetOracle) (topic : List Char)
    (wiki : Option (List Char)) (base : List Char) (m : String)
    (h : (resolve_with_optional_base o topic wiki).1 = .ok (base, m)) :
    m = "explicit" ∨ m = "slug" ∨ m = "fandom_hub" := by
  unfold resolve_with_optional_base at h
  split at h
  · split at h
    · split at h
      · simp_all
      · split at h <;> simp_all
    · exact resolve_topic_methods o topic base m h
  · exact resolve_topic_methods o topic base m h

theorem C2_resolution_methods_witness :
    ("slug" : String) = "explicit" ∨ ("slug" : String) = "slug" ∨
      ("slug" : String) = "fandom_hub" :=
  C2_resolution_methods o_zzz "zzz".data none "https://zzz.fandom.com".data
    "slug" (by decide)

/-! Claim C3: allow-list enforcement for explicit wiki URLs. -/

/-- Claim C3 (counterexample): for the explicit wiki URL `ftp://evil.com`
the parsed hostname is `evil.com`, which ends with no allow-listed suffix,
yet resolution fails with HTTP 400 (InvalidWikiUrl, because the scheme check
runs first), not with the claimed HostNotAllowed 403. -/
theorem C3_counterexample :
    (url_scheme_host (trimL "ftp://evil.com".data)).2 = some "evil.com".data ∧
    ALLOWED_WIKI_HOST_SUFFIXES.any
      (fun s => s.isSuffixOf "evil.com".data) = false ∧
    resolve_with_optional_base o_false "x".data (some "ftp://evil.com".data) =
      (.error 400, 0, 0) ∧
    (400 : Nat) ≠ 403 := by
  refine ⟨by decide, by decide, by decide, by decide⟩

/-- Claim C3 (amended): an explicit wiki URL that normalizes successfully
(http/https scheme and a hostname) but whose host fails the allow-list is
rejected with HTTP 403 and zero probe calls and zero hub lookups; a supplied
URL whose scheme is not http/https or whose hostname is missing is rejected
with HTTP 400, also with zero probes and zero hub lookups. -/
theorem C3_allowlist_enforcement (o : NetOracle) (topic w : List Char) :
    (∀ b : List Char, normalize_base w = .ok b → host_is_allowed b = false →
      resolve_with_optional_base o topic (some w) = (.error 403, 0, 0)) ∧
    (w ≠ [] →
      (¬((url_scheme_host (trimL w)).1 = "http".data ∨
          (url_scheme_host (trimL w)).1 = "https".data) ∨
        (url_scheme_host (trimL w)).2.getD [] = []) →
      resolve_with_optional_base o topic (some w) = (.error 400, 0, 0)) := by
  constructor
  · intro b hb hall
    have hw : w ≠ [] := by
      intro hnil
      subst hnil
      rw [show normalize_base [] = .error 400 from rfl] at hb
      exact Except.noConfusion hb
    simp only [resolve_with_optional_base]
    rw [if_pos hw, hb]
    simp [hall]
  · intro hw hbad
    have hb : normalize_base w = .error 400 := by
      unfold normalize_base
      rw [if_neg]
      intro hcon
      rcases hbad with hbad | hbad
      · exact hbad hcon.1
      · exact hcon.2 hbad
    simp only [resolve_with_optional_base]
    rw [if_pos hw, hb]

theorem C3_allowlist_enforcement_witness :
    resolve_with_optional_base o_false "x".data (some "https://evil.com".data) =
        (.error 403, 0, 0) ∧
    resolve_with_optional_base o_false "x".data (some "ftp://a.fandom.com".data) =
        (.error 400, 0, 0) :=
  ⟨(C3_allowlist_enforcement o_false "x".data "https://evil.com".data).1
      "https://evil.com".data (by decide) (by decide),
   (C3_allowlist_enforcement o_false "x".data "ftp://a.fandom.com".data).2
      (by decide) (by decide)⟩

/-! Claim C5: candidate API endpoint strategy. -/

theorem not_fandom_and_wikipedia (base : List Char) :
    ¬(is_fandom base = true ∧ is_wikipedia base = true) := by
  rintro ⟨hf, hw⟩
  unfold is_fandom at hf
  unfold is_wikipedia at hw
  have hf' := List.isSuffixOf_iff_suffix.mp hf
  have hw' := List.isSuffixOf_iff_suffix.mp hw
  have hsfx := List.suffix_of_suffix_length_le hf' hw' (by decide)
  exact absurd hsfx (by decide)

/-- Claim C5 (confirmed): for a normalized WikiBase (a fixpoint of
`normalize_base`), the candidate API list is `[{base}/api.php,
{base}/w/api.php]` for a fandom.com host, `[{base}/w/api.php]` for a
wikipedia.org host, and `[{base}/w/api.php, {base}/api.php]` for every other
host (wiki.gg included). -/
theorem C5_candidate_action_apis (b : List Char)
    (hb : normalize_base b = .ok b) :
    candidate_action_apis b = .ok (
      if is_fandom b then [b ++ "/api.php".data, b ++ "/w/api.php".data]
      else if is_wikipedia b then [b ++ "/w/api.php".data]
      else [b ++ "/w/api.php".data, b ++ "/api.php".data]) := by
  unfold candidate_action_apis
  rw [hb]
  by_cases hf : is_fandom b = true
  · have hw : is_wikipedia b = false := by
      rcases hwb : is_wikipedia b with _ | _
      · rfl
      · exact absurd ⟨hf, hwb⟩ (not_fandom_and_wikipedia b)
    simp [hf, hw]
  · by_cases hw : is_wikipedia b = true
    · simp [hf, hw]
    · simp only [Bool.not_eq_true] at hf hw
      simp [hf, hw]

theorem C5_candidate_action_apis_witness :
    candidate_action_apis "https://x.fandom.com".data = .ok (
      if is_fandom "https://x.fandom.com".data then
        ["https://x.fandom.com".data ++ "/api.php".data,
         "https://x.fandom.com".data ++ "/w/api.php".data]
      else if is_wikipedia "https://x.fandom.com".data then
        ["https://x.fandom.com".data ++ "/w/api.php".data]
      else
        ["https://x.fandom.com".data ++ "/w/api.php".data,
         "https://x.fandom.com".data ++ "/api.php".data]) :=
  C5_candidate_action_apis "https://x.fandom.com".data (by decide)

/-! Claim C10: topics that are themselves URLs. -/

/-- Claim C10 (confirmed): a topic starting with `http://` or `https://`
(with no explicit wiki parameter) is treated as an explicit wiki URL — it is
normalized and allow-list checked; when allowed the normalized base is
returned with method `explicit`, otherwise the request fails 403; both ways
zero probes and zero hub lookups happen. -/
theorem C10_url_topic_is_explicit (o : NetOracle) (topic b : List Char)
    (hpre : "http://".data.isPrefixOf topic = true ∨
      "https://".data.isPrefixOf topic = true)
    (hb : normalize_base topic = .ok b) :
    (host_is_allowed b = true →
      resolve_topic o topic = (.ok (b, "explicit"), 0, 0)) ∧
    (host_is_allowed b = false →
      resolve_topic o topic = (.error 403, 0, 0)) := by
  constructor <;> intro hall <;>
    · unfold resolve_topic
      rw [if_pos hpre, hb]
      simp [hall]

theorem C10_url_topic_is_explicit_witness :
    resolve_topic o_false "https://foo.fandom.com".data =
      (.ok ("https://foo.fandom.com".data, "explicit"), 0, 0) :=
  (C10_url_topic_is_explicit o_false "https://foo.fandom.com".data
    "https://foo.fandom.com".data (Or.inr (by decide)) (by decide)).1 (by decide)

/-! Character invariants of tokens and slugs. -/

theorem wordChar_ne {c : Char} (h : wordChar c = true) {x : Char}
    (hx : wordChar x = false) : c ≠ x := by
  intro he
  rw [he, hx] at h
  exact Bool.noConfusion h

theorem wordChar_not_ws {c : Char} (h : wordChar c = true) :
    c.isWhitespace = false := by
  rcases hws : c.isWhitespace with _ | _
  · rfl
  · exfalso
    simp only [Char.isWhitespace, Bool.or_eq_true, decide_eq_true_eq] at hws
    rcases hws with ((rfl | rfl) | rfl) | rfl <;> exact absurd h (by decide)

theorem good_slug_char_facts {c : Char} (h : good_slug_char c) :
    good_url_tail_char c := by
  rcases h with ⟨hw, hl⟩ | rfl
  · refine ⟨wordChar_not_ws hw, hl, wordChar_ne hw (by decide),
      wordChar_ne hw (by decide), ?_⟩
    rcases hne : netloc_end c with _ | _
    · rfl
    · exfalso
      simp only [netloc_end, Bool.or_eq_true, decide_eq_true_eq] at hne
      rcases hne with (rfl | rfl) | rfl <;> exact absurd hw (by decide)
  · exact ⟨by decide, by decide, by decide, by decide, by decide⟩

theorem good_slug_char_of_lower {c : Char} (h : good_slug_char c) :
    lowerChar c = c :=
  (good_slug_char_facts h).2.1

theorem split_tokens_go_sound {P : Char → Prop} :
    ∀ (l cur : List Char), (∀ c ∈ l, c = ' ' ∨ P c) → (∀ c ∈ cur, P c) →
    ∀ t ∈ split_tokens_go l cur, t ≠ [] ∧ ∀ c ∈ t, P c := by
  intro l
  induction l with
  | nil =>
    intro cur hl hcur t ht
    unfold split_tokens_go at ht
    split at ht
    · simp at ht
    · rename_i hne
      rw [List.mem_singleton] at ht
      subst ht
      exact ⟨by simpa using hne, fun c hc => hcur c (List.mem_reverse.mp hc)⟩
  | cons c rest ih =>
    intro cur hl hcur t ht
    unfold split_tokens_go at ht
    split at ht
    · split at ht
      · exact ih [] (fun d hd => hl d (by simp [hd])) (by simp) t ht
      · rename_i hne
        rcases List.mem_cons.mp ht with rfl | ht
        · exact ⟨by simpa using hne, fun d hd => hcur d (List.mem_reverse.mp hd)⟩
        · exact ih [] (fun d hd => hl d (by simp [hd])) (by simp) t ht
    · rename_i hcne
      refine ih (c :: cur) (fun d hd => hl d (by simp [hd])) ?_ t ht
      intro d hd
      rcases List.mem_cons.mp hd with rfl | hd
      · rcases hl d (by simp) with h' | h'
        · exact absurd h' hcne
        · exact h'
      · exact hcur d hd

theorem tokenize_topic_good {topic : List Char} {tokens : List (List Char)}
    (h : tokenize_topic topic = .ok tokens) :
    ∀ t ∈ tokens, t ≠ [] ∧ ∀ c ∈ t, good_tok_char c := by
  simp only [tokenize_topic] at h
  split at h
  · exact absurd h (by simp)
  · rw [Except.ok.injEq] at h
    subst h
    apply split_tokens_go_sound
    · intro d hd
      rw [List.mem_map] at hd
      obtain ⟨c, hc, rfl⟩ := hd
      by_cases hw : wordChar c = true
      · right
        rw [if_pos hw]
        refine ⟨hw, ?_⟩
        rw [lowerStr, List.mem_map] at hc
        obtain ⟨c0, _, rfl⟩ := hc
        exact lowerChar_idem c0
      · left
        rw [if_neg hw]
    · simp

theorem mem_join_compact {c : Char} :
    ∀ {ts : List (List Char)}, c ∈ join_compact ts → ∃ t ∈ ts, c ∈ t := by
  intro ts
  induction ts with
  | nil =>
    intro h
    simp [join_compact] at h
  | cons t rest ih =>
    intro h
    rw [join_compact] at h
    rcases List.mem_append.mp h with h | h
    · exact ⟨t, by simp, h⟩
    · obtain ⟨t', ht', hc⟩ := ih h
      exact ⟨t', by simp [ht'], hc⟩

theorem mem_join_hyphen {c : Char} :
    ∀ {ts : List (List Char)}, c ∈ join_hyphen ts →
      (∃ t ∈ ts, c ∈ t) ∨ c = '-' := by
  intro ts
  induction ts with
  | nil =>
    intro h
    simp [join_hyphen] at h
  | cons t rest ih =>
    intro h
    cases rest with
    | nil =>
      exact Or.inl ⟨t, by simp, by simpa [join_hyphen] using h⟩
    | cons t' rest' =>
      have hjoin : join_hyphen (t :: t' :: rest') = t ++ '-' :: join_hyphen (t' :: rest') := rfl
      rw [hjoin] at h
      rcases List.mem_append.mp h with h | h
      · exact Or.inl ⟨t, by simp, h⟩
      · rcases List.mem_cons.mp h with rfl | h
        · exact Or.inr rfl
        · rcases ih h with ⟨t'', ht'', hc⟩ | h
          · exact Or.inl ⟨t'', by simp [List.mem_cons.mp ht''], hc⟩
          · exact Or.inr h

theorem good_join_compact {ts : List (List Char)}
    (h : ∀ t ∈ ts, ∀ c ∈ t, good_tok_char c) :
    ∀ c ∈ join_compact ts, good_slug_char c := by
  intro c hc
  obtain ⟨t, ht, hct⟩ := mem_join_compact hc
  exact Or.inl (h t ht c hct)

theorem good_join_hyphen {ts : List (List Char)}
    (h : ∀ t ∈ ts, ∀ c ∈ t, good_tok_char c) :
    ∀ c ∈ join_hyphen ts, good_slug_char c := by
  intro c hc
  rcases mem_join_hyphen hc with ⟨t, ht, hct⟩ | rfl
  · exact Or.inl (h t ht c hct)
  · exact Or.inr rfl

theorem good_tokens_filter {tokens : List (List Char)} {p : List Char → Bool}
    (h : ∀ t ∈ tokens, ∀ c ∈ t, good_tok_char c) :
    ∀ t ∈ tokens.filter p, ∀ c ∈ t, good_tok_char c :=
  fun t ht => h t (List.mem_filter.mp ht).1

theorem good_tokens_take {tokens : List (List Char)} {n : Nat}
    (h : ∀ t ∈ tokens, ∀ c ∈ t, good_tok_char c) :
    ∀ t ∈ tokens.take n, ∀ c ∈ t, good_tok_char c :=
  fun t ht => h t (List.take_subset n tokens ht)

theorem good_strip_digit_suffix {t : List Char}
    (h : ∀ c ∈ t, good_tok_char c) :
    ∀ c ∈ strip_digit_suffix t, good_tok_char c := by
  intro c hc
  unfold strip_digit_suffix at hc
  rw [List.mem_reverse] at hc
  have hsub := (List.dropWhile_suffix (l := t.reverse) Char.isDigit).subset hc
  exact h c (List.mem_reverse.mp hsub)

theorem slug_candidates_raw_chars {tokens : List (List Char)}
    (htok : ∀ t ∈ tokens, ∀ c ∈ t, good_tok_char c) :
    ∀ s ∈ slug_candidates_raw tokens, ∀ c ∈ s, good_slug_char c := by
  intro s hs
  unfold slug_candidates_raw at hs
  have hclean : ∀ t ∈ tokens.filter (fun t => !STOPWORDS.contains t),
      ∀ c ∈ t, good_tok_char c := good_tokens_filter htok
  simp only [List.mem_append] at hs
  rcases hs with ((((((((hs | hs) | hs) | hs) | hs) | hs) | hs) | hs) | hs)
  · split at hs
    · rcases List.mem_cons.mp hs with rfl | hs
      · exact good_join_compact hclean
      · rcases List.mem_singleton.mp hs with rfl
        exact good_join_hyphen hclean
    · simp at hs
  · rcases List.mem_cons.mp hs with rfl | hs
    · exact good_join_compact htok
    · rcases List.mem_singleton.mp hs with rfl
      exact good_join_hyphen htok
  · split at hs
    · rcases List.mem_cons.mp hs with rfl | hs
      · exact good_join_compact (good_tokens_take hclean)
      · rcases List.mem_singleton.mp hs with rfl
        exact good_join_hyphen (good_tokens_take hclean)
    · simp at hs
  · split at hs
    · rcases List.mem_cons.mp hs with rfl | hs
      · exact good_join_compact (good_tokens_take htok)
      · rcases List.mem_singleton.mp hs with rfl
        exact good_join_hyphen (good_tokens_take htok)
    · simp at hs
  · split at hs
    · rcases List.mem_cons.mp hs with rfl | hs
      · exact good_join_compact (good_tokens_filter hclean)
      · rcases List.mem_singleton.mp hs with rfl
        exact good_join_hyphen (good_tokens_filter hclean)
    · simp at hs
  · split at hs
    · rcases List.mem_cons.mp hs with rfl | hs
      · exact good_join_compact (good_tokens_filter hclean)
      · rcases List.mem_singleton.mp hs with rfl
        exact good_join_hyphen (good_tokens_filter hclean)
    · simp at hs
  · have hsds : ∀ t ∈ ((tokens.filter (fun t => !STOPWORDS.contains t)).map
        strip_digit_suffix).filter (fun t => !t.isEmpty),
        ∀ c ∈ t, good_tok_char c := by
      intro t ht c hc
      have ht' := (List.mem_filter.mp ht).1
      rw [List.mem_map] at ht'
      obtain ⟨t0, ht0, rfl⟩ := ht'
      exact good_strip_digit_suffix (hclean t0 ht0) c hc
    split at hs
    · rcases List.mem_cons.mp hs with rfl | hs
      · exact good_join_compact hsds
      · rcases List.mem_singleton.mp hs with rfl
        exact good_join_hyphen hsds
    · simp at hs
  · rw [List.mem_flatMap] at hs
    obtain ⟨n, _, hs⟩ := hs
    rcases List.mem_cons.mp hs with rfl | hs
    · exact good_join_compact (good_tokens_take hclean)
    · rcases List.mem_singleton.mp hs with rfl
      exact good_join_hyphen (good_tokens_take hclean)
  · split at hs
    · split at hs
      · rcases List.mem_singleton.mp hs with rfl
        intro c hc
        rw [List.mem_filterMap] at hc
        obtain ⟨t, ht, heq⟩ := hc
        cases t with
        | nil => exact absurd heq (by simp)
        | cons c0 t' =>
          have heq' : (if c0.isAlphanum = true then some c0 else none) = some c := heq
          by_cases ha : c0.isAlphanum = true
          · rw [if_pos ha, Option.some.injEq] at heq'
            subst heq'
            exact Or.inl (hclean _ ht c0 (by simp))
          · rw [if_neg ha] at heq'
            exact absurd heq' (by simp)
      · simp at hs
    · simp at hs

/-! The dedup/length filter of `candidate_slugs`. -/

theorem dedup_filter_shape :
    ∀ {cs seen : List (List Char)} {s : List Char}, s ∈ dedup_filter cs seen →
      (∃ c ∈ cs, s = lowerStr (trimL c)) ∧ 3 ≤ s.length ∧ s ∉ seen := by
  intro cs
  induction cs with
  | nil =>
    intro seen s h
    simp [dedup_filter] at h
  | cons c rest ih =>
    intro seen s h
    rw [dedup_filter] at h
    split at h
    · obtain ⟨⟨c', hc', hs⟩, hlen, hseen⟩ := ih h
      exact ⟨⟨c', by simp [hc'], hs⟩, hlen, hseen⟩
    · split at h
      · obtain ⟨⟨c', hc', hs⟩, hlen, hseen⟩ := ih h
        exact ⟨⟨c', by simp [hc'], hs⟩, hlen, hseen⟩
      · split at h
        · obtain ⟨⟨c', hc', hs⟩, hlen, hseen⟩ := ih h
          exact ⟨⟨c', by simp [hc'], hs⟩, hlen, hseen⟩
        · rcases List.mem_cons.mp h with rfl | h
          · rename_i hne hlen hseen
            refine ⟨⟨c, by simp, rfl⟩, by omega, ?_⟩
            intro hmem
            exact hseen (List.elem_eq_true_of_mem hmem)
          · obtain ⟨⟨c', hc', hs⟩, hlen, hseen⟩ := ih h
            refine ⟨⟨c', by simp [hc'], hs⟩, hlen, fun hm => hseen (by simp [hm])⟩

theorem dedup_filter_nodup :
    ∀ (cs seen : List (List Char)), (dedup_filter cs seen).Nodup := by
  intro cs
  induction cs with
  | nil =>
    intro seen
    simp [dedup_filter]
  | cons c rest ih =>
    intro seen
    rw [dedup_filter]
    split
    · exact ih seen
    · split
      · exact ih seen
      · split
        · exact ih seen
        · refine List.nodup_cons.mpr ⟨?_, ih _⟩
          intro hmem
          have := (dedup_filter_shape hmem).2.2
          exact this (by simp)

theorem dedup_filter_sublist :
    ∀ (cs seen : List (List Char)),
      (dedup_filter cs seen).Sublist (cs.map (fun c => lowerStr (trimL c))) := by
  intro cs
  induction cs with
  | nil =>
    intro seen
    simp [dedup_filter]
  | cons c rest ih =>
    intro seen
    rw [dedup_filter, List.map_cons]
    split
    · exact (ih seen).cons _
    · split
      · exact (ih seen).cons _
      · split
        · exact (ih seen).cons _
        · exact (ih _).cons₂ _

theorem dedup_filter_mem :
    ∀ {cs seen : List (List Char)} {c : List Char}, c ∈ cs →
      3 ≤ (lowerStr (trimL c)).length → lowerStr (trimL c) ∉ seen →
      lowerStr (trimL c) ∈ dedup_filter cs seen := by
  intro cs
  induction cs with
  | nil =>
    intro seen c h
    simp at h
  | cons c0 rest ih =>
    intro seen c hc hlen hseen
    rw [dedup_filter]
    by_cases he : lowerStr (trimL c0) = lowerStr (trimL c)
    · rw [if_neg, if_neg, if_neg]
      · rw [he]
        exact List.mem_cons_self _ _
      · rw [he]
        intro hcont
        exact hseen (List.mem_of_elem_eq_true hcont)
      · rw [he]
        omega
      · rw [he]
        intro hnil
        rw [hnil] at hlen
        simp at hlen
    · have hc' : c ∈ rest := by
        rcases List.mem_cons.mp hc with rfl | hc'
        · exact absurd rfl he
        · exact hc'
      split
      · exact ih hc' hlen hseen
      · split
        · exact ih hc' hlen hseen
        · split
          · exact ih hc' hlen hseen
          · refine List.mem_cons_of_mem _ (ih hc' hlen ?_)
            intro hmem
            rcases List.mem_cons.mp hmem with heq | hmem
            · exact he heq.symm
            · exact hseen hmem

/-- Every slug produced by `candidate_slugs` is nonempty with only word or
hyphen characters, all fixed under lowering. -/
theorem candidate_slugs_good {topic : List Char} {slugs : List (List Char)}
    (h : candidate_slugs topic = .ok slugs) : ∀ s ∈ slugs, good_slug s := by
  unfold candidate_slugs at h
  rcases ht : tokenize_topic topic with e | tokens <;> rw [ht] at h
  · exact absurd h (by simp [Except.map])
  · simp only [Except.map, Except.ok.injEq] at h
    subst h
    intro s hs
    obtain ⟨⟨c, hc, rfl⟩, hlen, -⟩ := dedup_filter_shape hs
    have hgood : ∀ d ∈ c, good_slug_char d :=
      slug_candidates_raw_chars
        (fun t htm => (tokenize_topic_good ht t htm).2) c hc
    have htrim : ∀ d ∈ trimL c, good_slug_char d := by
      intro d hd
      apply hgood
      unfold trimL at hd
      rw [List.mem_reverse] at hd
      have h1 := (List.dropWhile_suffix (p := Char.isWhitespace)).subset hd
      rw [List.mem_reverse] at h1
      exact (List.dropWhile_suffix (p := Char.isWhitespace)).subset h1
    constructor
    · intro hnil
      rw [hnil] at hlen
      simp at hlen
    · intro d hd
      rw [lowerStr, List.mem_map] at hd
      obtain ⟨d0, hd0, rfl⟩ := hd
      rw [good_slug_char_of_lower (htrim d0 hd0)]
      exact htrim d0 hd0

theorem proc_eq_self {l : List Char} (h : ∀ c ∈ l, good_slug_char c) :
    lowerStr (trimL l) = l := by
  rw [trimL_eq_self (fun c hc => (good_slug_char_facts (h c hc)).1)]
  exact map_eq_self_of (fun c hc => good_slug_char_of_lower (h c hc))

/-! Claim C7: slug length, dedup and order invariants. -/

/-- Claim C7 (confirmed): for every topic, the generated slug candidate list
has no entry of length below 3, no case-insensitive duplicates (lowering the
entries keeps them pairwise distinct), and preserves first-seen generation
order (the output is a sublist of the processed raw candidate sequence). -/
theorem C7_slug_list_invariants (topic : List Char) (slugs : List (List Char))
    (h : candidate_slugs topic = .ok slugs) :
    (∀ s ∈ slugs, 3 ≤ s.length) ∧
    (slugs.map lowerStr).Nodup ∧
    (∃ tokens, tokenize_topic topic = .ok tokens ∧
      slugs.Sublist ((slug_candidates_raw tokens).map
        (fun c => lowerStr (trimL c)))) := by
  unfold candidate_slugs at h
  rcases ht : tokenize_topic topic with e | tokens <;> rw [ht] at h
  · exact absurd h (by simp [Except.map])
  · simp only [Except.map, Except.ok.injEq] at h
    subst h
    refine ⟨fun s hs => (dedup_filter_shape hs).2.1, ?_, tokens, rfl, ?_⟩
    · have hfix : (dedup_filter (slug_candidates_raw tokens) []).map lowerStr =
          dedup_filter (slug_candidates_raw tokens) [] := by
        apply map_eq_self_of
        intro s hs
        obtain ⟨⟨c, _, rfl⟩, -, -⟩ := dedup_filter_shape hs
        exact lowerStr_idem (trimL c)
      rw [hfix]
      exact dedup_filter_nodup _ _
    · exact dedup_filter_sublist _ _

theorem C7_slug_list_invariants_witness :
    (∀ s ∈ ["hello".data], 3 ≤ s.length) ∧
    ((["hello".data].map lowerStr).Nodup) ∧
    (∃ tokens, tokenize_topic "hello".data = .ok tokens ∧
      List.Sublist ["hello".data] ((slug_candidates_raw tokens).map
        (fun c => lowerStr (trimL c)))) :=
  C7_slug_list_invariants "hello".data ["hello".data] (by decide)

/-! Claim C9: all-stopword topics. -/

/-- Claim C9 (counterexample): the topic `of` consists only of stopword
tokens, yet the candidate list is empty — the unfiltered-token joins `of`
are dropped by the minimum-length-3 filter, so the claimed fallback joins
are not in the output. -/
theorem C9_counterexample :
    tokenize_topic "of".data = .ok ["of".data] ∧
    (∀ t ∈ [("of".data : List Char)], STOPWORDS.contains t = true) ∧
    candidate_slugs "of".data = .ok [] ∧
    join_compact ["of".data] ∉ ([] : List (List Char)) := by
  refine ⟨by decide, by decide, by decide, by simp⟩

/-- Claim C9 (amended): a topic of only stopword tokens never makes slug
generation fail, and the no-separator and hyphen-separator joins of the
unfiltered token list appear in the output whenever they survive the
minimum-length-3 filter. -/
theorem C9_stopword_fallback (topic : List Char) (tokens : List (List Char))
    (ht : tokenize_topic topic = .ok tokens)
    (hstop : ∀ t ∈ tokens, STOPWORDS.contains t = true) :
    ∃ slugs, candidate_slugs topic = .ok slugs ∧
      (3 ≤ (join_compact tokens).length → join_compact tokens ∈ slugs) ∧
      (3 ≤ (join_hyphen tokens).length → join_hyphen tokens ∈ slugs) := by
  have htokgood : ∀ t ∈ tokens, ∀ c ∈ t, good_tok_char c :=
    fun t htm => (tokenize_topic_good ht t htm).2
  refine ⟨dedup_filter (slug_candidates_raw tokens) [], ?_, ?_, ?_⟩
  · unfold candidate_slugs
    rw [ht]
    rfl
  · intro hlen
    have hmem : join_compact tokens ∈ slug_candidates_raw tokens := by
      simp only [slug_candidates_raw, List.mem_append]
      refine Or.inl (Or.inl (Or.inl (Or.inl (Or.inl (Or.inl (Or.inl
        (Or.inr ?_)))))))
      simp
    have hproc : lowerStr (trimL (join_compact tokens)) = join_compact tokens :=
      proc_eq_self (good_join_compact htokgood)
    have hm := @dedup_filter_mem _ [] _ hmem
      (by rw [hproc]; exact hlen) (by simp)
    rw [hproc] at hm
    exact hm
  · intro hlen
    have hmem : join_hyphen tokens ∈ slug_candidates_raw tokens := by
      simp only [slug_candidates_raw, List.mem_append]
      refine Or.inl (Or.inl (Or.inl (Or.inl (Or.inl (Or.inl (Or.inl
        (Or.inr ?_)))))))
      simp
    have hproc : lowerStr (trimL (join_hyphen tokens)) = join_hyphen tokens :=
      proc_eq_self (good_join_hyphen htokgood)
    have hm := @dedup_filter_mem _ [] _ hmem
      (by rw [hproc]; exact hlen) (by simp)
    rw [hproc] at hm
    exact hm

theorem C9_stopword_fallback_witness :
    ∃ slugs, candidate_slugs "the and".data = .ok slugs ∧
      (3 ≤ (join_compact ["the".data, "and".data]).length →
        join_compact ["the".data, "and".data] ∈ slugs) ∧
      (3 ≤ (join_hyphen ["the".data, "and".data]).length →
        join_hyphen ["the".data, "and".data] ∈ slugs) :=
  C9_stopword_fallback "the and".data ["the".data, "and".data]
    (by decide) (by decide)

/-! Parsing the bases `resolve_topic` synthesizes from a slug. -/

theorem good_url_tail_append {s sfx : List Char}
    (hs : ∀ c ∈ s, good_slug_char c) (hx : ∀ c ∈ sfx, good_url_tail_char c) :
    ∀ c ∈ s ++ sfx, good_url_tail_char c := by
  intro c hc
  rcases List.mem_append.mp hc with hc | hc
  · exact good_slug_char_facts (hs c hc)
  · exact hx c hc

theorem fandom_sfx_ok : ∀ c ∈ ".fandom.com".data, good_url_tail_char c := by
  decide

theorem wikigg_sfx_ok : ∀ c ∈ ".wiki.gg".data, good_url_tail_char c := by
  decide

theorem hostname_of_netloc_synth {tail : List Char}
    (htail : ∀ c ∈ tail, good_url_tail_char c) (hne : tail ≠ []) :
    hostname_of_netloc tail = some tail := by
  simp only [hostname_of_netloc]
  have h1 : tail.reverse.takeWhile (fun c => c ≠ '@') = tail.reverse := by
    apply takeWhile_eq_self_of
    intro c hc
    simp [(htail c (List.mem_reverse.mp hc)).2.2.2.1]
  have h2 : tail.takeWhile (fun c => c ≠ ':') = tail := by
    apply takeWhile_eq_self_of
    intro c hc
    simp [(htail c hc).2.2.1]
  rw [h1, List.reverse_reverse, h2]
  have hfix : lowerStr tail = tail :=
    map_eq_self_of (fun c hc => (htail c hc).2.1)
  rw [hfix, if_neg hne]

theorem url_scheme_host_synth {tail : List Char}
    (htail : ∀ c ∈ tail, good_url_tail_char c) (hne : tail ≠ []) :
    url_scheme_host ("https://".data ++ tail) = ("https".data, some tail) := by
  have hnp : "//".data.isPrefixOf ("https://".data ++ tail) = false := by
    show "//".data.isPrefixOf ('h' :: ("ttps://".data ++ tail)) = false
    simp [List.isPrefixOf]
  have hbefore : ("https://".data ++ tail).takeWhile (fun c => c ≠ ':') =
      "https".data := by
    rw [show "https://".data ++ tail =
      "https".data ++ (':' :: ('/' :: ('/' :: tail))) from rfl,
      takeWhile_append_all (by decide), List.takeWhile_cons]
    simp
  have hafter : ("https://".data ++ tail).dropWhile (fun c => c ≠ ':') =
      ':' :: ('/' :: ('/' :: tail)) := by
    rw [show "https://".data ++ tail =
      "https".data ++ (':' :: ('/' :: ('/' :: tail))) from rfl,
      dropWhile_append_all (by decide), List.dropWhile_cons]
    simp
  have hhost : host_part ('/' :: ('/' :: tail)) = some tail := by
    simp only [host_part]
    rw [show ('/' :: ('/' :: tail)).drop 2 = tail from rfl]
    have htw : tail.takeWhile (fun c => !netloc_end c) = tail := by
      apply takeWhile_eq_self_of
      intro c hc
      rw [(htail c hc).2.2.2.2]
      rfl
    rw [htw]
    exact hostname_of_netloc_synth htail hne
  simp only [url_scheme_host]
  rw [if_neg (by rw [hnp]; exact Bool.false_ne_true)]
  simp only [hbefore, hafter]
  rw [if_pos (by decide)]
  have hpp : "//".data.isPrefixOf ('/' :: ('/' :: tail)) = true := by
    simp [List.isPrefixOf]
  rw [if_pos hpp, hhost]
  have hlow : lowerStr "https".data = "https".data := by decide
  rw [hlow]

theorem trimL_synth {tail : List Char}
    (htail : ∀ c ∈ tail, good_url_tail_char c) :
    trimL ("https://".data ++ tail) = "https://".data ++ tail := by
  apply trimL_eq_self
  intro c hc
  rcases List.mem_append.mp hc with hc | hc
  · have hconc : ∀ d ∈ "https://".data, d.isWhitespace = false := by decide
    exact hconc c hc
  · exact (htail c hc).1

theorem normalize_base_synth {tail : List Char}
    (htail : ∀ c ∈ tail, good_url_tail_char c) (hne : tail ≠ []) :
    normalize_base ("https://".data ++ tail) =
      .ok ("https://".data ++ tail) := by
  unfold normalize_base
  rw [trimL_synth htail, url_scheme_host_synth htail hne]
  rw [if_pos ⟨Or.inr rfl, hne⟩]
  rfl

theorem not_suffix_synth {s sfx pat : List Char} (hlen : sfx.length ≤ pat.length)
    (hnot : ¬ sfx <:+ pat) : pat.isSuffixOf (s ++ sfx) = false := by
  rcases h : pat.isSuffixOf (s ++ sfx) with _ | _
  · rfl
  · exfalso
    have hp := List.isSuffixOf_iff_suffix.mp h
    exact hnot (List.suffix_of_suffix_length_le (List.suffix_append s sfx) hp hlen)

theorem fandom_base_facts {s : List Char} (hs : good_slug s) :
    normalize_base ("https://".data ++ s ++ ".fandom.com".data) =
      .ok ("https://".data ++ s ++ ".fandom.com".data) ∧
    host_is_allowed ("https://".data ++ s ++ ".fandom.com".data) = true ∧
    is_fandom ("https://".data ++ s ++ ".fandom.com".data) = true ∧
    is_wikipedia ("https://".data ++ s ++ ".fandom.com".data) = false := by
  obtain ⟨hne, hchars⟩ := hs
  have htail : ∀ c ∈ s ++ ".fandom.com".data, good_url_tail_char c :=
    good_url_tail_append hchars fandom_sfx_ok
  have htne : s ++ ".fandom.com".data ≠ [] := by simp
  have hassoc : "https://".data ++ s ++ ".fandom.com".data =
      "https://".data ++ (s ++ ".fandom.com".data) := List.append_assoc _ _ _
  have hurl := url_scheme_host_synth htail htne
  have hfix : lowerStr (s ++ ".fandom.com".data) = s ++ ".fandom.com".data :=
    map_eq_self_of (fun c hc => (htail c hc).2.1)
  have hsf : "fandom.com".data.isSuffixOf (s ++ ".fandom.com".data) = true := by
    apply List.isSuffixOf_iff_suffix.mpr
    exact ⟨s ++ ".".data, by rw [List.append_assoc]; rfl⟩
  refine ⟨?_, ?_, ?_, ?_⟩
  · rw [hassoc]
    exact normalize_base_synth htail htne
  · simp only [host_is_allowed, hassoc, hurl, Option.getD_some, hfix]
    simp [ALLOWED_WIKI_HOST_SUFFIXES, hsf]
  · simp only [is_fandom, hassoc, hurl, Option.getD_some, hfix]
    exact hsf
  · simp only [is_wikipedia, hassoc, hurl, Option.getD_some, hfix]
    exact not_suffix_synth (by decide) (by decide)

theorem wikigg_base_facts {s : List Char} (hs : good_slug s) :
    normalize_base ("https://".data ++ s ++ ".wiki.gg".data) =
      .ok ("https://".data ++ s ++ ".wiki.gg".data) ∧
    host_is_allowed ("https://".data ++ s ++ ".wiki.gg".data) = true ∧
    is_fandom ("https://".data ++ s ++ ".wiki.gg".data) = false ∧
    is_wikipedia ("https://".data ++ s ++ ".wiki.gg".data) = false := by
  obtain ⟨hne, hchars⟩ := hs
  have htail : ∀ c ∈ s ++ ".wiki.gg".data, good_url_tail_char c :=
    good_url_tail_append hchars wikigg_sfx_ok
  have htne : s ++ ".wiki.gg".data ≠ [] := by simp
  have hassoc : "https://".data ++ s ++ ".wiki.gg".data =
      "https://".data ++ (s ++ ".wiki.gg".data) := List.append_assoc _ _ _
  have hurl := url_scheme_host_synth htail htne
  have hfix : lowerStr (s ++ ".wiki.gg".data) = s ++ ".wiki.gg".data :=
    map_eq_self_of (fun c hc => (htail c hc).2.1)
  have hsf : "wiki.gg".data.isSuffixOf (s ++ ".wiki.gg".data) = true := by
    apply List.isSuffixOf_iff_suffix.mpr
    exact ⟨s ++ ".".data, by rw [List.append_assoc]; rfl⟩
  refine ⟨?_, ?_, ?_, ?_⟩
  · rw [hassoc]
    exact normalize_base_synth htail htne
  · simp only [host_is_allowed, hassoc, hurl, Option.getD_some, hfix]
    simp [ALLOWED_WIKI_HOST_SUFFIXES, hsf]
  · simp only [is_fandom, hassoc, hurl, Option.getD_some, hfix]
    exact not_suffix_synth (by decide) (by decide)
  · simp only [is_wikipedia, hassoc, hurl, Option.getD_some, hfix]
    exact not_suffix_synth (by decide) (by decide)

theorem apis_fandom {s : List Char} (hs : good_slug s) :
    candidate_action_apis ("https://".data ++ s ++ ".fandom.com".data) =
      .ok [("https://".data ++ s ++ ".fandom.com".data) ++ "/api.php".data,
        ("https://".data ++ s ++ ".fandom.com".data) ++ "/w/api.php".data] := by
  obtain ⟨hnorm, -, hf, hw⟩ := fandom_base_facts hs
  simp only [candidate_action_apis, hnorm, hw, hf]
  rfl

theorem apis_wikigg {s : List Char} (hs : good_slug s) :
    candidate_action_apis ("https://".data ++ s ++ ".wiki.gg".data) =
      .ok [("https://".data ++ s ++ ".wiki.gg".data) ++ "/w/api.php".data,
        ("https://".data ++ s ++ ".wiki.gg".data) ++ "/api.php".data] := by
  obtain ⟨hnorm, -, hf, hw⟩ := wikigg_base_facts hs
  simp only [candidate_action_apis, hnorm, hw, hf]
  rfl

theorem try_bases_good_eq (o : List Char → Bool) {s : List Char}
    (hs : good_slug s) :
    try_bases o (slug_bases s) =
      (if o (("https://".data ++ s ++ ".fandom.com".data) ++ "/api.php".data)
          = true then
        (.ok (some ("https://".data ++ s ++ ".fandom.com".data)), 1)
      else if o (("https://".data ++ s ++ ".fandom.com".data) ++
          "/w/api.php".data) = true then
        (.ok (some ("https://".data ++ s ++ ".fandom.com".data)), 2)
      else if o (("https://".data ++ s ++ ".wiki.gg".data) ++
          "/w/api.php".data) = true then
        (.ok (some ("https://".data ++ s ++ ".wiki.gg".data)), 3)
      else if o (("https://".data ++ s ++ ".wiki.gg".data) ++
          "/api.php".data) = true then
        (.ok (some ("https://".data ++ s ++ ".wiki.gg".data)), 4)
      else (.ok none, 4)) := by
  obtain ⟨hnormF, hallF, -, -⟩ := fandom_base_facts hs
  obtain ⟨hnormW, hallW, -, -⟩ := wikigg_base_facts hs
  have hapisF := apis_fandom hs
  have hapisW := apis_wikigg hs
  simp only [slug_bases, try_bases, hnormF, hallF, hapisF, hnormW, hallW,
    hapisW, probe_apis]
  by_cases h1 : o (("https://".data ++ s ++ ".fandom.com".data) ++
      "/api.php".data) = true <;>
    by_cases h2 : o (("https://".data ++ s ++ ".fandom.com".data) ++
      "/w/api.php".data) = true <;>
    by_cases h3 : o (("https://".data ++ s ++ ".wiki.gg".data) ++
      "/w/api.php".data) = true <;>
    by_cases h4 : o (("https://".data ++ s ++ ".wiki.gg".data) ++
      "/api.php".data) = true <;>
    simp_all

theorem probe_plan_cons {s : List Char} (rest : List (List Char))
    (hs : good_slug s) :
    probe_plan (s :: rest) = plan_of_slug s ++ probe_plan rest := by
  obtain ⟨hnormF, hallF, -, -⟩ := fandom_base_facts hs
  obtain ⟨hnormW, hallW, -, -⟩ := wikigg_base_facts hs
  simp only [probe_plan, List.flatMap_cons, slug_bases, hnormF, hallF,
    apis_fandom hs, hnormW, hallW, apis_wikigg hs, List.flatMap_nil,
    List.map_cons, List.map_nil, plan_of_slug]
  simp [probe_plan]

theorem first_true_unique {α : Type} (o : α → Bool) (l : List α) :
    ∀ {k i : Nat} {p q : α}, l[k]? = some p →
      (l.take k).all (fun x => !o x) = true → o p = true →
      l[i]? = some q → (l.take i).all (fun x => !o x) = true → o q = true →
      k = i := by
  intro k i p q hk htk hp hi hti hq
  by_contra hne
  rcases Nat.lt_or_ge k i with hlt | hge
  · have hmem : p ∈ l.take i :=
      List.getElem?_mem (by rw [List.getElem?_take, if_pos hlt, hk])
    have hfalse := List.all_eq_true.mp hti _ hmem
    rw [Bool.not_eq_true'] at hfalse
    rw [hfalse] at hp
    exact Bool.noConfusion hp
  · have hlt : i < k := by omega
    have hmem : q ∈ l.take k :=
      List.getElem?_mem (by rw [List.getElem?_take, if_pos hlt, hi])
    have hfalse := List.all_eq_true.mp htk _ hmem
    rw [Bool.not_eq_true'] at hfalse
    rw [hfalse] at hq
    exact Bool.noConfusion hq

theorem try_slugs_first_success (o : List Char → Bool) :
    ∀ (slugs : List (List Char)), (∀ s ∈ slugs, good_slug s) →
    ∀ (k : Nat) (p : List Char × List Char),
      (probe_plan slugs)[k]? = some p →
      ((probe_plan slugs).take k).all (fun q => !o q.2) = true →
      o p.2 = true →
      try_slugs o slugs = (.ok (some p.1), k + 1) := by
  intro slugs
  induction slugs with
  | nil =>
    intro _ k p hk _ _
    simp [probe_plan] at hk
  | cons s rest ih =>
    intro hgood k p hk htake hsucc
    have hs : good_slug s := hgood s (by simp)
    rw [probe_plan_cons rest hs] at hk htake
    have htb := try_bases_good_eq o hs
    by_cases b1 : o (("https://".data ++ s ++ ".fandom.com".data) ++
        "/api.php".data) = true
    · have hk0 : k = 0 := by
        refine first_true_unique (fun q => o q.2) _ hk htake hsucc
          (i := 0) (q := ("https://".data ++ s ++ ".fandom.com".data,
            ("https://".data ++ s ++ ".fandom.com".data) ++ "/api.php".data))
          rfl (by simp) b1
      subst hk0
      rw [show (plan_of_slug s ++ probe_plan rest)[0]? =
        some ("https://".data ++ s ++ ".fandom.com".data,
          ("https://".data ++ s ++ ".fandom.com".data) ++ "/api.php".data)
        from rfl, Option.some.injEq] at hk
      subst hk
      simp only [try_slugs, htb]
      rw [if_pos b1]
    · have b1f : o (("https://".data ++ s ++ ".fandom.com".data) ++
          "/api.php".data) = false := Bool.eq_false_iff.mpr b1
      by_cases b2 : o (("https://".data ++ s ++ ".fandom.com".data) ++
          "/w/api.php".data) = true
      · have hk1 : k = 1 := by
          refine first_true_unique (fun q => o q.2) _ hk htake hsucc
            (i := 1) (q := ("https://".data ++ s ++ ".fandom.com".data,
              ("https://".data ++ s ++ ".fandom.com".data) ++ "/w/api.php".data))
            rfl ?_ b2
          rw [show (plan_of_slug s ++ probe_plan rest).take 1 =
            [("https://".data ++ s ++ ".fandom.com".data,
              ("https://".data ++ s ++ ".fandom.com".data) ++ "/api.php".data)]
            from rfl]
          simp only [List.all_cons, List.all_nil, b1f]
          rfl
        subst hk1
        rw [show (plan_of_slug s ++ probe_plan rest)[1]? =
          some ("https://".data ++ s ++ ".fandom.com".data,
            ("https://".data ++ s ++ ".fandom.com".data) ++ "/w/api.php".data)
          from rfl, Option.some.injEq] at hk
        subst hk
        simp only [try_slugs, htb]
        rw [if_neg b1, if_pos b2]
      · have b2f : o (("https://".data ++ s ++ ".fandom.com".data) ++
            "/w/api.php".data) = false := Bool.eq_false_iff.mpr b2
        by_cases b3 : o (("https://".data ++ s ++ ".wiki.gg".data) ++
            "/w/api.php".data) = true
        · have hk2 : k = 2 := by
            refine first_true_unique (fun q => o q.2) _ hk htake hsucc
              (i := 2) (q := ("https://".data ++ s ++ ".wiki.gg".data,
                ("https://".data ++ s ++ ".wiki.gg".data) ++ "/w/api.php".data))
              rfl ?_ b3
            rw [show (plan_of_slug s ++ probe_plan rest).take 2 =
              [("https://".data ++ s ++ ".fandom.com".data,
                ("https://".data ++ s ++ ".fandom.com".data) ++ "/api.php".data),
               ("https://".data ++ s ++ ".fandom.com".data,
                ("https://".data ++ s ++ ".fandom.com".data) ++ "/w/api.php".data)]
              from rfl]
            simp only [List.all_cons, List.all_nil, b1f, b2f]
            rfl
          subst hk2
          rw [show (plan_of_slug s ++ probe_plan rest)[2]? =
            some ("https://".data ++ s ++ ".wiki.gg".data,
              ("https://".data ++ s ++ ".wiki.gg".data) ++ "/w/api.php".data)
            from rfl, Option.some.injEq] at hk
          subst hk
          simp only [try_slugs, htb]
          rw [if_neg b1, if_neg b2, if_pos b3]
        · have b3f : o (("https://".data ++ s ++ ".wiki.gg".data) ++
              "/w/api.php".data) = false := Bool.eq_false_iff.mpr b3
          by_cases b4 : o (("https://".data ++ s ++ ".wiki.gg".data) ++
              "/api.php".data) = true
          · have hk3 : k = 3 := by
              refine first_true_unique (fun q => o q.2) _ hk htake hsucc
                (i := 3) (q := ("https://".data ++ s ++ ".wiki.gg".data,
                  ("https://".data ++ s ++ ".wiki.gg".data) ++ "/api.php".data))
                (by
                  rw [List.getElem?_append, if_pos (show (3:Nat) <
                    (plan_of_slug s).length by simp [plan_of_slug])]
                  rfl) ?_ b4
              rw [show (plan_of_slug s ++ probe_plan rest).take 3 =
                [("https://".data ++ s ++ ".fandom.com".data,
                  ("https://".data ++ s ++ ".fandom.com".data) ++ "/api.php".data),
                 ("https://".data ++ s ++ ".fandom.com".data,
                  ("https://".data ++ s ++ ".fandom.com".data) ++ "/w/api.php".data),
                 ("https://".data ++ s ++ ".wiki.gg".data,
                  ("https://".data ++ s ++ ".wiki.gg".data) ++ "/w/api.php".data)]
                from rfl]
              simp only [List.all_cons, List.all_nil, b1f, b2f, b3f]
              rfl
            subst hk3
            rw [List.getElem?_append, if_pos (show (3:Nat) <
              (plan_of_slug s).length by simp [plan_of_slug])] at hk
            rw [show (plan_of_slug s)[3]? =
              some ("https://".data ++ s ++ ".wiki.gg".data,
                ("https://".data ++ s ++ ".wiki.gg".data) ++ "/api.php".data)
              from rfl, Option.some.injEq] at hk
            subst hk
            simp only [try_slugs, htb]
            rw [if_neg b1, if_neg b2, if_neg b3, if_pos b4]
          · have b4f : o (("https://".data ++ s ++ ".wiki.gg".data) ++
                "/api.php".data) = false := Bool.eq_false_iff.mpr b4
            have hlen4 : (plan_of_slug s).length = 4 := rfl
            have hfail4 : ∀ q ∈ plan_of_slug s, o q.2 = false := by
              intro q hq
              rw [show plan_of_slug s =
                [("https://".data ++ s ++ ".fandom.com".data,
                  ("https://".data ++ s ++ ".fandom.com".data) ++ "/api.php".data),
                 ("https://".data ++ s ++ ".fandom.com".data,
                  ("https://".data ++ s ++ ".fandom.com".data) ++ "/w/api.php".data),
                 ("https://".data ++ s ++ ".wiki.gg".data,
                  ("https://".data ++ s ++ ".wiki.gg".data) ++ "/w/api.php".data),
                 ("https://".data ++ s ++ ".wiki.gg".data,
                  ("https://".data ++ s ++ ".wiki.gg".data) ++ "/api.php".data)]
                from rfl] at hq
              simp only [List.mem_cons, List.not_mem_nil, or_false] at hq
              rcases hq with rfl | rfl | rfl | rfl
              · exact b1f
              · exact b2f
              · exact b3f
              · exact b4f
            have hk4 : 4 ≤ k := by
              by_contra h4
              rw [List.getElem?_append] at hk
              rw [if_pos (by omega)] at hk
              have hmem := List.getElem?_mem hk
              rw [hfail4 p hmem] at hsucc
              exact Bool.noConfusion hsucc
            have hkplan : (probe_plan rest)[k - 4]? = some p := by
              rw [List.getElem?_append_right (by omega)] at hk
              rw [hlen4] at hk
              exact hk
            have htake' : ((probe_plan rest).take (k - 4)).all
                (fun q => !o q.2) = true := by
              rw [List.take_append_eq_append_take, List.all_append,
                Bool.and_eq_true] at htake
              have h2 := htake.2
              rw [hlen4] at h2
              exact h2
            have hrest := ih (fun s' hs' => hgood s' (by simp [hs']))
              (k - 4) p hkplan htake' hsucc
            simp only [try_slugs, htb]
            rw [if_neg b1, if_neg b2, if_neg b3, if_neg b4]
            rw [hrest]
            have : 4 + (k - 4 + 1) = k + 1 := by omega
            rw [this]

/-! Claim C1: short-circuiting priority order. -/

/-- Claim C1 (confirmed): when resolution goes through slug guessing and the
probe at 0-based position `k` of the priority order (slugs in order, fandom
before wiki.gg per slug, primary endpoint before fallback per base, which is
`probe_plan`) is the first to succeed, `resolve_topic` makes exactly `k + 1`
probe calls (the `k` failures plus the one success — the claim's "exactly k
probes" with 1-based counting), returns that probe's base with method
`slug`, issues no further probes and performs no hub lookup. -/
theorem C1_short_circuit (o : NetOracle) (topic : List Char)
    (slugs : List (List Char)) (k : Nat) (p : List Char × List Char)
    (hnp : ¬("http://".data.isPrefixOf topic = true ∨
      "https://".data.isPrefixOf topic = true))
    (hcs : candidate_slugs topic = .ok slugs)
    (hk : (probe_plan slugs)[k]? = some p)
    (hfail : ((probe_plan slugs).take k).all (fun q => !o.probe q.2) = true)
    (hsucc : o.probe p.2 = true) :
    resolve_topic o topic = (.ok (p.1, "slug"), k + 1, 0) := by
  have hgood := candidate_slugs_good hcs
  have hts := try_slugs_first_success o.probe slugs hgood k p hk hfail hsucc
  simp only [resolve_topic, hcs, hts]
  rw [if_neg hnp]

theorem C1_short_circuit_witness :
    resolve_topic o_zzz "zzz".data =
      (.ok ("https://zzz.fandom.com".data, "slug"), 2, 0) :=
  C1_short_circuit o_zzz "zzz".data ["zzz".data] 1
    ("https://zzz.fandom.com".data, "https://zzz.fandom.com/w/api.php".data)
    (by decide) (by decide) (by decide) (by decide) (by decide)

end MWBridge
